import Mathlib

/-
Verification development for the tide-static-files repository.

The repository contains two historical variants of a static-file server core:
  * src/lib.rs        — `StaticFiles`: a raw-string regex guard (`path_traversal_regex`)
                        followed by a verbatim `PathBuf::join`, and `serve`.
  * src/utils.rs      — `resolve_path` (segment-popping resolver) and `buffer_size`.
  * src/file_stream.rs — `read_worker`: chunked streaming of a byte range over a channel.
  * src/file_request.rs — `FileRequest::work`: response classification.

Paths are modelled as lists of Unicode characters (`List Char`); a filesystem path
is a list of components (`List (List Char)`).  Bytes are modelled as `Nat`.
Fallible I/O operations are modelled by `Except Nat` oracles (the `Nat` stands for
an `std::io::Error`), and the streaming worker loop is given explicit fuel so that
its (possible) non-termination is observable as a `false` "worker exited" flag.
-/

set_option autoImplicit false

/-- Characters of a string literal, the form in which request paths are handled. -/
def strChars (s : String) : List Char := s.data

/-! ## Sizing helper (src/utils.rs) -/

/-- Model of `MAX_BUFFER_SIZE` in src/utils.rs line 8: `1024 * 1024 * 10`. -/
def MAX_BUFFER_SIZE : Nat := 1024 * 1024 * 10

/-- Model of `buffer_size` in src/utils.rs lines 31-33:
`min(remain as usize, MAX_BUFFER_SIZE)`.  `remain` is a `u64` and the cast to a
64-bit `usize` is lossless, so both are modelled as `Nat`. -/
def buffer_size (remain : Nat) : Nat := min remain MAX_BUFFER_SIZE

/-! ## Substring search and segment splitting

`Regex::is_match` looks for a match of any alternative anywhere in the string,
so the regex model below is built from a substring test. -/

/-- Substring occurrence test: `pat` occurs contiguously somewhere in `s`. -/
def hasSubstr (pat s : List Char) : Bool :=
  (List.range (s.length + 1)).any fun i => decide ((s.drop i).take pat.length = pat)

theorem hasSubstr_intro (pat s : List Char) (i : Nat)
    (h : (s.drop i).take pat.length = pat) : hasSubstr pat s = true := by
  unfold hasSubstr
  rw [List.any_eq_true]
  by_cases hi : i ≤ s.length
  · exact ⟨i, List.mem_range.mpr (by omega), decide_eq_true h⟩
  · refine ⟨s.length, List.mem_range.mpr (by omega), decide_eq_true ?_⟩
    have hd : s.drop i = [] := List.drop_eq_nil_of_le (by omega)
    rw [hd, List.take_nil] at h
    rw [List.drop_length, List.take_nil, h]

theorem hasSubstr_elim (pat s : List Char)
    (h : hasSubstr pat s = true) : ∃ i, (s.drop i).take pat.length = pat := by
  unfold hasSubstr at h
  rw [List.any_eq_true] at h
  obtain ⟨i, _, hp⟩ := h
  exact ⟨i, of_decide_eq_true hp⟩

/-- A witnessing occurrence of `pat` also witnesses any of its truncations. -/
theorem hasSubstr_mono (pat s : List Char) (j : Nat) (hj : j ≤ pat.length)
    (h : hasSubstr pat s = true) : hasSubstr (pat.take j) s = true := by
  obtain ⟨i, hi⟩ := hasSubstr_elim pat s h
  apply hasSubstr_intro _ _ i
  rw [List.length_take, Nat.min_eq_left hj, ← hi, List.take_take,
    Nat.min_eq_left hj]

/-- Model of Rust's `str::split('/')`: the list of `/`-delimited segments,
including empty ones (`"".split('/')` is `[""]`, `"a//b"` gives `["a","","b"]`). -/
def splitSlash : List Char → List (List Char)
  | [] => [[]]
  | c :: rest =>
    if c = '/' then [] :: splitSlash rest
    else
      match splitSlash rest with
      | [] => [[c]]
      | s :: ss => (c :: s) :: ss

theorem splitSlash_ne_nil (s : List Char) : splitSlash s ≠ [] := by
  cases s with
  | nil => simp [splitSlash]
  | cons c rest =>
    unfold splitSlash
    by_cases hc : c = '/'
    · simp [hc]
    · simp only [hc, if_false]
      cases splitSlash rest <;> simp

/-- The first `/`-segment of a string is one of its prefixes. -/
theorem splitSlash_head (s : List Char) :
    ∀ s0 rest, splitSlash s = s0 :: rest → s.take s0.length = s0 := by
  induction s with
  | nil =>
    intro s0 rest h
    simp only [splitSlash] at h
    injection h with h1 _
    simp [← h1]
  | cons c t ih =>
    intro s0 rest h
    unfold splitSlash at h
    by_cases hc : c = '/'
    · simp only [hc, if_pos rfl] at h
      injection h with h1 _
      simp [← h1]
    · simp only [hc, if_false] at h
      cases hsp : splitSlash t with
      | nil => exact absurd hsp (splitSlash_ne_nil t)
      | cons u us =>
        rw [hsp] at h
        injection h with h1 _
        subst h1
        simp only [List.length_cons, List.take_succ_cons]
        rw [ih u us hsp]

/-- Every `/`-segment after the first occurs in the string immediately after a
slash: `'/' :: seg` occurs as a contiguous substring. -/
theorem splitSlash_tail_substr (seg : List Char) :
    ∀ (s : List Char) s0 rest, splitSlash s = s0 :: rest → seg ∈ rest →
    ∃ i, (s.drop i).take (seg.length + 1) = '/' :: seg := by
  intro s
  induction s with
  | nil =>
    intro s0 rest h hm
    simp only [splitSlash] at h
    injection h with _ h2
    rw [← h2] at hm
    exact absurd hm (List.not_mem_nil seg)
  | cons c t ih =>
    intro s0 rest h hm
    unfold splitSlash at h
    by_cases hc : c = '/'
    · simp only [hc, if_pos rfl] at h
      injection h with _ h2
      rw [← h2] at hm
      cases hsp : splitSlash t with
      | nil => exact absurd hsp (splitSlash_ne_nil t)
      | cons u us =>
        rw [hsp] at hm
        rcases List.mem_cons.mp hm with hequ | hmus
        · refine ⟨0, ?_⟩
          subst hequ hc
          simp only [List.drop_zero, List.take_succ_cons]
          rw [splitSlash_head t seg us hsp]
        · obtain ⟨i, hi⟩ := ih u us hsp hmus
          exact ⟨i + 1, by simpa using hi⟩
    · simp only [hc, if_false] at h
      cases hsp : splitSlash t with
      | nil =>
        rw [hsp] at h
        injection h with _ h2
        rw [← h2] at hm
        exact absurd hm (List.not_mem_nil seg)
      | cons u us =>
        rw [hsp] at h
        injection h with _ h2
        rw [← h2] at hm
        obtain ⟨i, hi⟩ := ih u us hsp hm
        exact ⟨i + 1, by simpa using hi⟩

/-! ## The raw-string guard (src/lib.rs, `path_traversal_regex`, lines 83-99)

The regex (in `(?x)` mode) is the alternation
`(\.\.[/\\]) | (/\.) | (^\.) | (^\*) | (\\\\)`, i.e. it matches a string that
contains `../` or `..\`, or contains `/.`, or starts with `.`, or starts
with `*`, or contains two consecutive backslashes.  `is_match` reports whether
any alternative matches anywhere. -/

/-- Model of `StaticFiles::path_traversal_matcher.is_match` on a request path. -/
def pathTraversalMatch (s : List Char) : Bool :=
  hasSubstr ['.', '.', '/'] s || hasSubstr ['.', '.', '\\'] s ||
  hasSubstr ['/', '.'] s ||
  decide (s.take 1 = ['.']) || decide (s.take 1 = ['*']) ||
  hasSubstr ['\\', '\\'] s

/-- The assertions of the repository's own test `path_traversal_regex_works`
hold of the model (the last string also happens to start with a star). -/
example :
    pathTraversalMatch (strChars "../") = true ∧
    pathTraversalMatch (strChars "..") = true ∧
    pathTraversalMatch (strChars "/../") = true ∧
    pathTraversalMatch (strChars "/ab/.c") = true ∧
    pathTraversalMatch (strChars "*/ab/c") = true ∧
    pathTraversalMatch (strChars "*/ab/c/\\e/f") = true := by
  decide

/-- Any segment that starts with a dot makes the guard fire: either it is the
first segment (so the string starts with `.`) or it follows a slash (so `/.`
occurs as a substring). -/
theorem segment_dot_matches (s seg : List Char) (hm : seg ∈ splitSlash s)
    (hd : seg.take 1 = ['.']) : pathTraversalMatch s = true := by
  have hlen : 1 ≤ seg.length := by
    by_contra hcon
    interval_cases h : seg.length
    · rw [List.length_eq_zero] at h
      rw [h] at hd
      exact absurd hd (by decide)
  cases hsp : splitSlash s with
  | nil => exact absurd hsp (splitSlash_ne_nil s)
  | cons s0 rest =>
    rw [hsp] at hm
    rcases List.mem_cons.mp hm with heq | hmr
    · subst heq
      have hpre := splitSlash_head s seg rest hsp
      have h1 : s.take 1 = ['.'] := by
        have := congrArg (List.take 1) hpre
        rwa [List.take_take, Nat.min_eq_left hlen, hd] at this
      simp [pathTraversalMatch, h1]
    · obtain ⟨i, hi⟩ := splitSlash_tail_substr seg s s0 rest hsp hmr
      have h2 : (s.drop i).take 2 = ['/', '.'] := by
        have := congrArg (List.take 2) hi
        rw [List.take_take, Nat.min_eq_left (by omega)] at this
        rw [this, List.take_succ_cons]
        rw [hd]
      have := hasSubstr_intro ['/', '.'] s i h2
      simp [pathTraversalMatch, this]

/-! ## The segment-popping resolver (src/utils.rs, `resolve_path`, lines 13-29)

A `PathBuf` is modelled as its list of normal components.  `PathBuf::push` of a
segment produced by `split('/')` (hence slash-free and relative) appends the
component, except that pushing the empty string only appends a separator and
leaves the component list unchanged; `PathBuf::pop` removes the last component
and reports whether there was one. -/

/-- Model of `PathBuf::push(component)` for a slash-free component. -/
def pathPush (p : List (List Char)) (comp : List Char) : List (List Char) :=
  if comp = [] then p else p ++ [comp]

/-- The `for component in url_path.split('/')` loop of `resolve_path`:
`.` is skipped, `..` pops (rejecting when nothing can be popped, i.e. when
`addition.pop()` returns `false`), anything else is pushed verbatim. -/
def resolveLoop : List (List Char) → List (List Char) → Option (List (List Char))
  | acc, [] => some acc
  | acc, comp :: rest =>
    if comp = ['.'] then resolveLoop acc rest
    else if comp = ['.', '.'] then
      match acc with
      | [] => none
      | _ :: _ => resolveLoop acc.dropLast rest
    else resolveLoop (pathPush acc comp) rest

/-- Model of `resolve_path(base, url_path)`: run the loop on the split path and
join the base directory with the accumulated relative addition. -/
def resolve_path (base : List (List Char)) (url_path : List Char) :
    Option (List (List Char)) :=
  (resolveLoop [] (splitSlash url_path)).map fun addition => base ++ addition

/-- Whenever the loop rejects, a literal `..` segment was among the split
components (only the `..` arm of the match can return `None`). -/
theorem resolveLoop_none_mem :
    ∀ (comps : List (List Char)) (acc : List (List Char)),
    resolveLoop acc comps = none → ['.', '.'] ∈ comps := by
  intro comps
  induction comps with
  | nil => intro acc h; exact absurd h (by simp [resolveLoop])
  | cons comp rest ih =>
    intro acc h
    unfold resolveLoop at h
    by_cases h1 : comp = ['.']
    · simp only [h1, if_pos rfl] at h
      exact List.mem_cons_of_mem _ (ih acc h)
    · by_cases h2 : comp = ['.', '.']
      · rw [h2]
        exact List.mem_cons_self _ _
      · simp only [h1, h2, if_false] at h
        exact List.mem_cons_of_mem _ (ih (pathPush acc comp) h)

/-- The invariant behind the confinement claim: when the loop succeeds starting
from an accumulator free of `..`, `.` and empty components, the result is free
of them too (pops only shorten the accumulator, pushes are guarded). -/
theorem resolveLoop_good :
    ∀ (comps : List (List Char)) (acc r : List (List Char)),
    (∀ seg ∈ acc, seg ≠ ['.', '.'] ∧ seg ≠ ['.'] ∧ seg ≠ []) →
    resolveLoop acc comps = some r →
    ∀ seg ∈ r, seg ≠ ['.', '.'] ∧ seg ≠ ['.'] ∧ seg ≠ [] := by
  intro comps
  induction comps with
  | nil =>
    intro acc r hacc h
    simp only [resolveLoop, Option.some.injEq] at h
    rw [← h]
    exact hacc
  | cons comp rest ih =>
    intro acc r hacc h
    unfold resolveLoop at h
    by_cases h1 : comp = ['.']
    · simp only [h1, if_pos rfl] at h
      exact ih acc r hacc h
    · by_cases h2 : comp = ['.', '.']
      · simp only [h1, h2, if_false, if_pos rfl] at h
        cases acc with
        | nil => exact absurd h (by simp)
        | cons a as =>
          refine ih _ r ?_ h
          intro seg hseg
          apply hacc
          rw [List.dropLast_eq_take] at hseg
          exact List.take_subset _ _ hseg
      · simp only [h1, h2, if_false] at h
        refine ih _ r ?_ h
        intro seg hseg
        unfold pathPush at hseg
        by_cases h3 : comp = []
        · exact hacc seg (by simpa [h3] using hseg)
        · simp only [h3, if_false, List.mem_append, List.mem_singleton] at hseg
          rcases hseg with hseg | hseg
          · exact hacc seg hseg
          · subst hseg
            exact ⟨h2, h1, h3⟩

/-! ## The serve variant (src/lib.rs, `StaticFiles::serve`, lines 61-79)

`serve` rejects when the regex matches, otherwise joins the base with the raw
request path (`self.base.join(path)`), opens the file (open failure becomes a
404), and reads it to the end — where a read failure hits
`.expect("TODO: error handling")`, i.e. a panic, modelled explicitly. -/

/-- Model of `Path::components()` on a slash-separated string: empty and `.`
components are not components of the resulting path. -/
def rustComponents (p : List Char) : List (List Char) :=
  (splitSlash p).filter fun seg => decide (seg ≠ [] ∧ seg ≠ ['.'])

/-- A filesystem path as `PathBuf` sees it: an absolute-path flag plus the list
of normal components. -/
structure RustPath where
  absolute : Bool
  comps : List (List Char)
deriving DecidableEq, Repr

/-- Model of `PathBuf::join(path)` on a raw string: joining an absolute path
replaces `self` entirely, otherwise the new components are appended. -/
def pathJoin (base : RustPath) (p : List Char) : RustPath :=
  if p.take 1 = ['/'] then ⟨true, rustComponents p⟩
  else ⟨base.absolute, base.comps ++ rustComponents p⟩

/-- The path-resolution part of `StaticFiles::serve`: `None` when the guard
matches (a 404 is returned without touching the filesystem), otherwise the
verbatim join that is handed to `File::open`. -/
def serveResolve (base : RustPath) (path : List Char) : Option RustPath :=
  if pathTraversalMatch path then none else some (pathJoin base path)

/-- Outcome of one `serve` call: an HTTP response, or a panic of the request
task (`expect` / `unwrap` firing). -/
inductive ServeOutcome where
  | response (status : Nat) (body : List Nat)
  | panicked
deriving DecidableEq, Repr

/-- Model of `StaticFiles::serve` (src/lib.rs lines 61-79).  The filesystem is
abstracted by two oracles: the result of `tokio_fs::File::open` and the result
of `read_to_end`.  A matching guard or a failed open yield `not_found_response`
(404 with empty body); a failed read hits `.expect("TODO: error handling")`. -/
def serve (path : List Char) (openRes : Except Nat Unit)
    (readRes : Except Nat (List Nat)) : ServeOutcome :=
  if pathTraversalMatch path then ServeOutcome.response 404 []
  else
    match openRes with
    | Except.error _ => ServeOutcome.response 404 []
    | Except.ok _ =>
      match readRes with
      | Except.error _ => ServeOutcome.panicked
      | Except.ok buf => ServeOutcome.response 200 buf

/-! ## Response classification (src/file_request.rs, `FileRequest::work`) -/

/-- The three response shapes `FileRequest::work` can produce: 404 from
`not_found_response`, 500 from `server_error_response`, or a 200 whose body
streams the file over the range `[0, size)`. -/
inductive WorkOutcome where
  | notFound
  | serverError
  | fileStream (size : Nat)
deriving DecidableEq, Repr

/-- HTTP status of each `WorkOutcome` (`not_found_response` is 404,
`server_error_response` is 500, `Response::new` with a stream body is 200). -/
def workStatus : WorkOutcome → Nat
  | WorkOutcome.notFound => 404
  | WorkOutcome.serverError => 500
  | WorkOutcome.fileStream _ => 200

/-- Model of `FileRequest::work` (src/file_request.rs lines 21-49): a missing
path yields `not_found_response`; a failed `File::open` yields
`server_error_response`; failed `metadata()` yields `server_error_response`;
otherwise the response streams the file over `0..size`. -/
def FileRequest_work (path : Option (List (List Char)))
    (openRes : Except Nat Unit) (metaRes : Except Nat Nat) : WorkOutcome :=
  match path with
  | none => WorkOutcome.notFound
  | some _ =>
    match openRes with
    | Except.error _ => WorkOutcome.serverError
    | Except.ok _ =>
      match metaRes with
      | Except.error _ => WorkOutcome.serverError
      | Except.ok size => WorkOutcome.fileStream size

/-! ## The chunked file reader (src/file_stream.rs, `read_worker`, lines 36-61)

The file is modelled by its byte contents plus failure oracles: an optional
seek error and, per read call, an optional read error.  A successful read at
cursor `pos` into a buffer of `size` bytes returns the next
`min(size, length - pos)` bytes, the deterministic behaviour of a regular
file (0 bytes exactly at end-of-file).  The worker loop carries explicit fuel;
the `Bool` of the result records whether the worker function returned
(`true`, after which the channel closes) or was still looping when the fuel
ran out (`false`). -/

/-- A file handle: contents plus failure oracles for `seek` and each `read`. -/
structure FileModel where
  contents : List Nat
  seekErr : Option Nat
  readErrs : Nat → Option Nat

/-- A file with no injected I/O failures. -/
def plainFile (contents : List Nat) : FileModel :=
  ⟨contents, none, fun _ => none⟩

/-- The half-open interval `range.start .. range.end` of `Range<u64>`. -/
structure ByteRange where
  start : Nat
  stop : Nat
deriving DecidableEq, Repr

/-- Mutable state of the worker loop: the file cursor (advanced by `read`),
`range.start` (advanced by `range.start += length`), and how many reads have
happened (to index the read-error oracle). -/
structure WorkerState where
  pos : Nat
  start : Nat
  reads : Nat
deriving DecidableEq, Repr

/-- One item sent over the channel: `Ok(Bytes)` or `Err(io::Error)`. -/
inductive StreamItem where
  | chunk (data : List Nat)
  | ioErr (e : Nat)
deriving DecidableEq, Repr

/-- Result of `file.read(&mut buffer)` followed by `buffer.truncate(length)`:
either the injected error for this read call, or the bytes actually read. -/
def readResult (f : FileModel) (readCount pos size : Nat) :
    Except Nat (List Nat) :=
  match f.readErrs readCount with
  | some e => Except.error e
  | none => Except.ok ((f.contents.drop pos).take size)

/-- The `while range.start < range.end` loop of `read_worker`: allocate a
buffer of `buffer_size(range.end - range.start)` bytes, read, and on success
advance and send the truncated buffer; on error send the error and return. -/
def workerLoop (f : FileModel) (endPos : Nat) :
    Nat → WorkerState → List StreamItem × Bool
  | 0, _ => ([], false)
  | fuel + 1, st =>
    if st.start < endPos then
      match readResult f st.reads st.pos (buffer_size (endPos - st.start)) with
      | Except.ok data =>
        let out := workerLoop f endPos fuel
          ⟨st.pos + data.length, st.start + data.length, st.reads + 1⟩
        (StreamItem.chunk data :: out.1, out.2)
      | Except.error e => ([StreamItem.ioErr e], true)
    else ([], true)

/-- Model of `read_worker` (src/file_stream.rs lines 36-61): seek to
`range.start` (a seek error is sent as the single item and the worker
returns), then run the loop with the cursor at `range.start`. -/
def read_worker (f : FileModel) (range : ByteRange) (fuel : Nat) :
    List StreamItem × Bool :=
  match f.seekErr with
  | some e => ([StreamItem.ioErr e], true)
  | none => workerLoop f range.stop fuel ⟨range.start, range.start, 0⟩

/-! ## Claims about the sizing helper and the resolvers -/

/-- C8: `buffer_size` is the pure, total function
`min(remainingBytes, MAX_BUFFER_SIZE)` with `MAX_BUFFER_SIZE = 10 * 1024 * 1024`;
for every `remaining` it never exceeds `MAX_BUFFER_SIZE` nor `remaining`, and
`buffer_size 0 = 0`. -/
theorem buffer_size_spec :
    (∀ remain : Nat,
      buffer_size remain = min remain MAX_BUFFER_SIZE ∧
      buffer_size remain ≤ MAX_BUFFER_SIZE ∧
      buffer_size remain ≤ remain) ∧
    buffer_size 0 = 0 ∧ MAX_BUFFER_SIZE = 10 * 1024 * 1024 := by
  refine ⟨fun remain => ⟨rfl, Nat.min_le_right _ _, Nat.min_le_left _ _⟩, rfl, by decide⟩

/-- C2: whenever `resolve_path` does not reject, the result is the base followed
by a relative addition that contains no `..`, `.` or empty component — so the
resolved path is the base itself or a lexical descendant of it, and stays one
after canonicalization; and the escaping request `../etc/passwd` against base
`/srv/www` is rejected. -/
theorem resolve_path_confines_to_base :
    (∀ (base : List (List Char)) (url : List Char) (r : List (List Char)),
      resolve_path base url = some r →
      ∃ addition, r = base ++ addition ∧
        ∀ seg ∈ addition, seg ≠ ['.', '.'] ∧ seg ≠ ['.'] ∧ seg ≠ []) ∧
    resolve_path [strChars "srv", strChars "www"] (strChars "../etc/passwd") = none := by
  constructor
  · intro base url r h
    unfold resolve_path at h
    rw [Option.map_eq_some'] at h
    obtain ⟨addition, hsome, hjoin⟩ := h
    exact ⟨addition, hjoin.symm,
      resolveLoop_good (splitSlash url) [] addition (by simp) hsome⟩
  · decide

/-- Witness for C2 at a concrete input: `a/b` under base `srv` resolves to
`srv/a/b`, which the theorem decomposes as base plus a clean addition. -/
theorem resolve_path_confines_to_base_witness :
    resolve_path [strChars "srv"] (strChars "a/b") =
      some [strChars "srv", strChars "a", strChars "b"] ∧
    ∃ addition,
      [strChars "srv", strChars "a", strChars "b"] = [strChars "srv"] ++ addition ∧
      ∀ seg ∈ addition, seg ≠ ['.', '.'] ∧ seg ≠ ['.'] ∧ seg ≠ [] :=
  ⟨by decide,
   resolve_path_confines_to_base.1 [strChars "srv"] (strChars "a/b")
     [strChars "srv", strChars "a", strChars "b"] (by decide)⟩

/-- C3 counterexample: the request path `a..b` contains a raw occurrence of
`..`, yet the guard regex does not match it and `resolve_path` resolves it, so
neither resolver rejects it; the claim as stated is false. -/
theorem raw_dotdot_not_always_rejected :
    hasSubstr ['.', '.'] (strChars "a..b") = true ∧
    pathTraversalMatch (strChars "a..b") = false ∧
    resolve_path [] (strChars "a..b") = some [strChars "a..b"] := by
  refine ⟨by decide, by decide, by decide⟩

/-- C3 (amended): every request path containing `..` immediately followed by a
slash or a backslash, or `..` immediately preceded by a slash, or `..` at the
very start, is matched by the raw-string guard (hence rejected with a 404);
in particular `cats/../meow.pdf` is rejected even though segment-wise popping
would stay inside the root.  (A `..` strictly inside a segment, as in `a..b`,
is not rejected.) -/
theorem dotdot_guard_at_boundaries :
    (∀ s : List Char,
      (hasSubstr ['.', '.', '/'] s = true ∨ hasSubstr ['.', '.', '\\'] s = true ∨
        hasSubstr ['/', '.', '.'] s = true ∨ s.take 2 = ['.', '.']) →
      pathTraversalMatch s = true) ∧
    pathTraversalMatch (strChars "cats/../meow.pdf") = true := by
  constructor
  · intro s h
    rcases h with h | h | h | h
    · simp [pathTraversalMatch, h]
    · simp [pathTraversalMatch, h]
    · have h2 : hasSubstr ['/', '.'] s = true := by
        have := hasSubstr_mono ['/', '.', '.'] s 2 (by decide) h
        simpa using this
      simp [pathTraversalMatch, h2]
    · have h1 : s.take 1 = ['.'] := by
        have := congrArg (List.take 1) h
        rw [List.take_take, Nat.min_eq_left (by omega : (1 : Nat) ≤ 2)] at this
        simpa using this
      simp [pathTraversalMatch, h1]
  · decide

/-- Witness for C3 (amended) at the concrete path `x/../y`, which contains
`../`. -/
theorem dotdot_guard_at_boundaries_witness :
    (hasSubstr ['.', '.', '/'] (strChars "x/../y") = true ∨
      hasSubstr ['.', '.', '\\'] (strChars "x/../y") = true ∨
      hasSubstr ['/', '.', '.'] (strChars "x/../y") = true ∨
      (strChars "x/../y").take 2 = ['.', '.']) ∧
    pathTraversalMatch (strChars "x/../y") = true :=
  ⟨Or.inl (by decide),
   dotdot_guard_at_boundaries.1 (strChars "x/../y") (Or.inl (by decide))⟩

/-- C4 counterexample: a `*` segment that is not at the start of the path
(`a/*/b`) and a single literal backslash (`a\b`) are both accepted by the
guard — the regex only matches a star at position 0 and a doubled backslash —
so the claim as stated is false. -/
theorem star_and_backslash_not_always_rejected :
    pathTraversalMatch (strChars "a/*/b") = false ∧
    strChars "*" ∈ splitSlash (strChars "a/*/b") ∧
    pathTraversalMatch (strChars "a\\b") = false ∧
    '\\' ∈ strChars "a\\b" := by
  refine ⟨by decide, by decide, by decide, by decide⟩

/-- C4 (amended): the guard runs on the raw untrusted string, and it rejects
every request path containing a segment that starts with `.`, every path whose
first character is `*`, and every path containing two consecutive backslashes.
(A `*` segment elsewhere and a single backslash are not rejected.) -/
theorem raw_guard_rejects_patterns (s : List Char)
    (h : (∃ seg ∈ splitSlash s, seg.take 1 = ['.']) ∨
      s.take 1 = ['*'] ∨ hasSubstr ['\\', '\\'] s = true) :
    pathTraversalMatch s = true := by
  rcases h with ⟨seg, hm, hd⟩ | h | h
  · exact segment_dot_matches s seg hm hd
  · simp [pathTraversalMatch, h]
  · simp [pathTraversalMatch, h]

/-- Witness for C4 (amended) at the concrete path `ab/.c`, whose second
segment starts with a dot. -/
theorem raw_guard_rejects_patterns_witness :
    ((∃ seg ∈ splitSlash (strChars "ab/.c"), seg.take 1 = ['.']) ∨
      (strChars "ab/.c").take 1 = ['*'] ∨
      hasSubstr ['\\', '\\'] (strChars "ab/.c") = true) ∧
    pathTraversalMatch (strChars "ab/.c") = true :=
  ⟨Or.inl ⟨strChars ".c", by decide, by decide⟩,
   raw_guard_rejects_patterns (strChars "ab/.c")
     (Or.inl ⟨strChars ".c", by decide, by decide⟩)⟩

/-- C10 counterexample: the two resolver variants are not equivalent.
`cats/../meow.pdf` is rejected by the regex-guard variant but resolved by
`resolve_path`; and `/etc/passwd` is accepted by both, yet `serve`'s verbatim
`PathBuf::join` lets the absolute path replace the base (escaping the root)
while `resolve_path` joins it under the base — different resolved paths. -/
theorem resolver_variants_disagree :
    serveResolve ⟨true, [strChars "srv", strChars "www"]⟩
        (strChars "cats/../meow.pdf") = none ∧
    resolve_path [strChars "srv", strChars "www"] (strChars "cats/../meow.pdf") =
      some [strChars "srv", strChars "www", strChars "meow.pdf"] ∧
    serveResolve ⟨true, [strChars "srv", strChars "www"]⟩
        (strChars "/etc/passwd") =
      some ⟨true, [strChars "etc", strChars "passwd"]⟩ ∧
    resolve_path [strChars "srv", strChars "www"] (strChars "/etc/passwd") =
      some [strChars "srv", strChars "www", strChars "etc", strChars "passwd"] := by
  refine ⟨by decide, by decide, by decide, by decide⟩

/-- C10 (amended): the containment that does hold between the two variants —
every request path rejected by the segment-popping `resolve_path` (a `..`
popping past the empty accumulator) is also rejected by the raw-string regex
guard; the guard is strictly more restrictive on `..`, and the variants are
not equivalent (see the counterexample). -/
theorem regex_guard_dominates_resolve_path (base : List (List Char))
    (url : List Char) (h : resolve_path base url = none) :
    pathTraversalMatch url = true := by
  unfold resolve_path at h
  rw [Option.map_eq_none'] at h
  exact segment_dot_matches url ['.', '.']
    (resolveLoop_none_mem (splitSlash url) [] h) (by decide)

/-- Witness for C10 (amended) at the concrete escaping path `../x`. -/
theorem regex_guard_dominates_resolve_path_witness :
    resolve_path [] (strChars "../x") = none ∧
    pathTraversalMatch (strChars "../x") = true :=
  ⟨by decide, regex_guard_dominates_resolve_path [] (strChars "../x") (by decide)⟩

/-! ## Claims about response classification -/

/-- C5 counterexample: in `FileRequest::work`, a resolved path whose
`File::open` fails (e.g. the file does not exist) produces
`server_error_response` — HTTP 500 — not the 404 the claim states. -/
theorem open_failure_gives_server_error :
    FileRequest_work (some [strChars "missing.txt"]) (Except.error 2) (Except.ok 0) =
      WorkOutcome.serverError ∧
    workStatus (FileRequest_work (some [strChars "missing.txt"])
      (Except.error 2) (Except.ok 0)) ≠ 404 := by
  refine ⟨rfl, by decide⟩

/-- C5 (amended): `FileRequest::work` responds 404 (NotFound) exactly when
resolution produced no path; when the resolved path cannot be opened, or its
metadata cannot be read, it responds 500 Internal Server Error; when both
succeed it streams the file over `[0, size)` with status 200. -/
theorem work_response_classification :
    (∀ (openRes : Except Nat Unit) (metaRes : Except Nat Nat),
      FileRequest_work none openRes metaRes = WorkOutcome.notFound ∧
      workStatus (FileRequest_work none openRes metaRes) = 404) ∧
    (∀ (p : List (List Char)) (e : Nat) (metaRes : Except Nat Nat),
      FileRequest_work (some p) (Except.error e) metaRes = WorkOutcome.serverError ∧
      workStatus (FileRequest_work (some p) (Except.error e) metaRes) = 500) ∧
    (∀ (p : List (List Char)) (e : Nat),
      FileRequest_work (some p) (Except.ok ()) (Except.error e) =
        WorkOutcome.serverError) ∧
    (∀ (p : List (List Char)) (size : Nat),
      FileRequest_work (some p) (Except.ok ()) (Except.ok size) =
        WorkOutcome.fileStream size) :=
  ⟨fun _ _ => ⟨rfl, rfl⟩, fun _ _ _ => ⟨rfl, rfl⟩, fun _ _ => rfl, fun _ _ => rfl⟩

/-- C9: evidence that the core can panic on a per-request filesystem failure —
in `StaticFiles::serve`, when the guard does not match and the file opens but
`read_to_end` fails, execution hits `.expect("TODO: error handling")`, a
panic, instead of returning an error value. -/
theorem serve_panics_on_read_error :
    serve (strChars "meow.pdf") (Except.ok ()) (Except.error 13) =
      ServeOutcome.panicked := by
  decide

/-! ## Claims about the chunked file reader -/

/-- One-step unfolding of the loop when the range is exhausted: the worker
returns and the channel closes. -/
theorem workerLoop_stop (f : FileModel) (endPos fuel pos start k : Nat)
    (hge : endPos ≤ start) :
    workerLoop f endPos (fuel + 1) ⟨pos, start, k⟩ = ([], true) := by
  simp only [workerLoop]
  rw [if_neg (by omega)]

/-- One-step unfolding of the loop when the next read fails: the error is sent
and the worker returns. -/
theorem workerLoop_step_err (f : FileModel) (endPos fuel pos start k e : Nat)
    (hlt : start < endPos) (herr : f.readErrs k = some e) :
    workerLoop f endPos (fuel + 1) ⟨pos, start, k⟩ = ([StreamItem.ioErr e], true) := by
  simp only [workerLoop]
  rw [if_pos hlt]
  unfold readResult
  rw [herr]

/-- One-step unfolding of the loop when the next read succeeds: the bytes at
the cursor are sent and cursor, `range.start` and the read counter advance. -/
theorem workerLoop_step_ok (f : FileModel) (endPos fuel pos start k : Nat)
    (hlt : start < endPos) (hok : f.readErrs k = none) :
    workerLoop f endPos (fuel + 1) ⟨pos, start, k⟩ =
      (StreamItem.chunk ((f.contents.drop pos).take (buffer_size (endPos - start))) ::
        (workerLoop f endPos fuel
          ⟨pos + ((f.contents.drop pos).take (buffer_size (endPos - start))).length,
           start + ((f.contents.drop pos).take (buffer_size (endPos - start))).length,
           k + 1⟩).1,
       (workerLoop f endPos fuel
          ⟨pos + ((f.contents.drop pos).take (buffer_size (endPos - start))).length,
           start + ((f.contents.drop pos).take (buffer_size (endPos - start))).length,
           k + 1⟩).2) := by
  simp only [workerLoop]
  rw [if_pos hlt]
  unfold readResult
  rw [hok]

/-- The successful step specialized to a file without injected failures. -/
theorem plainFile_step (contents : List Nat) (endPos fuel pos start k : Nat)
    (hlt : start < endPos) :
    workerLoop (plainFile contents) endPos (fuel + 1) ⟨pos, start, k⟩ =
      (StreamItem.chunk ((contents.drop pos).take (buffer_size (endPos - start))) ::
        (workerLoop (plainFile contents) endPos fuel
          ⟨pos + ((contents.drop pos).take (buffer_size (endPos - start))).length,
           start + ((contents.drop pos).take (buffer_size (endPos - start))).length,
           k + 1⟩).1,
       (workerLoop (plainFile contents) endPos fuel
          ⟨pos + ((contents.drop pos).take (buffer_size (endPos - start))).length,
           start + ((contents.drop pos).take (buffer_size (endPos - start))).length,
           k + 1⟩).2) := by
  have h := workerLoop_step_ok (plainFile contents) endPos fuel pos start k hlt rfl
  simpa [plainFile] using h

/-- At end-of-file with the range not yet satisfied, every iteration reads 0
bytes, leaves `range.start` unchanged, and sends an empty chunk: the loop
state repeats (up to the read counter) for any amount of fuel. -/
theorem workerLoop_eof_spin :
    ∀ fuel k : Nat, workerLoop (plainFile []) 1 fuel ⟨0, 0, k⟩ =
      (List.replicate fuel (StreamItem.chunk []), false) := by
  intro fuel
  induction fuel with
  | zero => intro k; rfl
  | succ n ih =>
    intro k
    rw [plainFile_step [] 1 n 0 0 k (by omega)]
    simp only [List.drop_nil, List.take_nil, List.length_nil, Nat.add_zero]
    rw [ih (k + 1)]
    simp [List.replicate_succ]

/-- C1: the code_bug evidence.  With an empty file (length sampled as 0 before
a concurrent truncation would be modelled the same way) and the declared range
`[0, 1)`, a read returns `n == 0`, the code has no stop condition for it, and
the worker never returns: for every fuel bound it is still looping, having
sent one empty chunk per iteration.  The spec instead requires the worker to
stop at EOF before the range is satisfied. -/
theorem read_worker_eof_loops (fuel : Nat) :
    read_worker (plainFile []) ⟨0, 1⟩ fuel =
      (List.replicate fuel (StreamItem.chunk []), false) := by
  have h : read_worker (plainFile []) ⟨0, 1⟩ fuel =
      workerLoop (plainFile []) 1 fuel ⟨0, 0, 0⟩ := rfl
  rw [h, workerLoop_eof_spin fuel 0]

/-- Correctness of the loop on an error-free file when the range lies inside
the contents: it terminates within `endPos - pos + 1` iterations and sends
exactly the bytes of the range, in order, in non-empty chunks. -/
theorem workerLoop_complete (contents : List Nat) (endPos : Nat)
    (hend : endPos ≤ contents.length) :
    ∀ fuel pos k : Nat, pos ≤ endPos → endPos - pos < fuel →
    ∃ datas : List (List Nat),
      workerLoop (plainFile contents) endPos fuel ⟨pos, pos, k⟩ =
        (datas.map StreamItem.chunk, true) ∧
      datas.flatten = (contents.drop pos).take (endPos - pos) ∧
      (datas.map List.length).sum = endPos - pos ∧
      ∀ d ∈ datas, d ≠ [] := by
  intro fuel
  induction fuel with
  | zero => intro pos k h1 h2; exact absurd h2 (by omega)
  | succ n ih =>
    intro pos k h1 h2
    by_cases hlt : pos < endPos
    · have hdlen : ((contents.drop pos).take (buffer_size (endPos - pos))).length
          = buffer_size (endPos - pos) := by
        rw [List.length_take, List.length_drop]
        simp only [buffer_size, MAX_BUFFER_SIZE]
        omega
      have hbs1 : 1 ≤ buffer_size (endPos - pos) := by
        simp only [buffer_size, MAX_BUFFER_SIZE]
        omega
      have hbsle : buffer_size (endPos - pos) ≤ endPos - pos := by
        simp only [buffer_size]
        exact Nat.min_le_left _ _
      obtain ⟨datas, heq, hjoin, hsum, hne⟩ :=
        ih (pos + ((contents.drop pos).take (buffer_size (endPos - pos))).length)
          (k + 1) (by rw [hdlen]; omega) (by rw [hdlen]; omega)
      refine ⟨(contents.drop pos).take (buffer_size (endPos - pos)) :: datas,
        ?_, ?_, ?_, ?_⟩
      · rw [plainFile_step contents endPos n pos pos k hlt, heq]
        simp
      · have hjoin2 : datas.flatten =
            ((contents.drop pos).drop (buffer_size (endPos - pos))).take
              (endPos - pos - buffer_size (endPos - pos)) := by
          rw [hjoin, hdlen, List.drop_drop, ← Nat.sub_sub]
        rw [List.flatten_cons, hjoin2, ← List.take_add]
        congr 1
        omega
      · rw [List.map_cons, List.sum_cons, hsum, hdlen]
        omega
      · intro d hd
        rcases List.mem_cons.mp hd with hd1 | hd2
        · subst hd1
          intro hnil
          rw [hnil] at hdlen
          simp only [List.length_nil] at hdlen
          omega
        · exact hne d hd2
    · have hpe : pos = endPos := by omega
      refine ⟨[], ?_, ?_, ?_, ?_⟩
      · rw [workerLoop_stop (plainFile contents) endPos n pos pos k (by omega)]
        rfl
      · simp [hpe]
      · simp [hpe]
      · simp

/-- C6 counterexample: for the range `[0, 1)` over an empty file, at fuel 7
the worker has sent seven empty chunks and is still looping; in particular no
finite drain terminates with chunks summing to `L = 1` — a consequence of the
missing EOF stop (C1's defect), which also shows the claim fails for ranges
extending past the file length. -/
theorem stream_short_file_sum_mismatch :
    read_worker (plainFile []) ⟨0, 1⟩ 7 =
      (List.replicate 7 (StreamItem.chunk []), false) ∧
    ¬ ∃ datas : List (List Nat),
        read_worker (plainFile []) ⟨0, 1⟩ 7 = (datas.map StreamItem.chunk, true) := by
  constructor
  · decide
  · rintro ⟨datas, h⟩
    have h2 : (read_worker (plainFile []) ⟨0, 1⟩ 7).2 = true := by rw [h]
    rw [show read_worker (plainFile []) ⟨0, 1⟩ 7 =
        (List.replicate 7 (StreamItem.chunk []), false) from by decide] at h2
    exact Bool.noConfusion h2

/-- C6 (amended): for every ByteRange `[s, e)` with `s ≤ e ≤` the file length
and no injected I/O failure, and enough fuel, the worker terminates having sent
a sequence of non-empty chunks whose concatenation is exactly the file's bytes
in `[s, e)` and whose lengths sum to `e - s`; since chunks are sent
sequentially by a single worker, this is delivery in strictly increasing
offset order with no gaps or overlaps, the final chunk ending exactly at `e`. -/
theorem stream_delivers_exact_range (contents : List Nat) (s e fuel : Nat)
    (h1 : s ≤ e) (h2 : e ≤ contents.length) (h3 : e - s < fuel) :
    ∃ datas : List (List Nat),
      read_worker (plainFile contents) ⟨s, e⟩ fuel = (datas.map StreamItem.chunk, true) ∧
      datas.flatten = (contents.drop s).take (e - s) ∧
      (datas.map List.length).sum = e - s ∧
      ∀ d ∈ datas, d ≠ [] := by
  have h : read_worker (plainFile contents) ⟨s, e⟩ fuel =
      workerLoop (plainFile contents) e fuel ⟨s, s, 0⟩ := rfl
  rw [h]
  exact workerLoop_complete contents e h2 fuel s 0 h1 h3

/-- Witness for C6 (amended): the middle range `[1, 3)` of the three-byte file
`[3, 5, 7]` is delivered in full. -/
theorem stream_delivers_exact_range_witness :
    (1 ≤ 3 ∧ 3 ≤ ([3, 5, 7] : List Nat).length ∧ 3 - 1 < 5) ∧
    ∃ datas : List (List Nat),
      read_worker (plainFile [3, 5, 7]) ⟨1, 3⟩ 5 = (datas.map StreamItem.chunk, true) ∧
      datas.flatten = (([3, 5, 7] : List Nat).drop 1).take (3 - 1) ∧
      (datas.map List.length).sum = 3 - 1 ∧
      ∀ d ∈ datas, d ≠ [] :=
  ⟨⟨by omega, by decide, by omega⟩,
   stream_delivers_exact_range [3, 5, 7] 1 3 5 (by omega) (by decide) (by omega)⟩

/-- C7: (i) a seek failure is sent as the single terminal item and the worker
exits; (ii) whatever the file behaviour, the items sent are successful chunks
possibly followed by one final error — an error is never followed by anything,
and the read that failed contributes no partial chunk; (iii) a failing first
read on a non-empty range is sent as the single terminal error item and the
worker exits. -/
theorem stream_errors_are_terminal :
    (∀ (contents : List Nat) (rerrs : Nat → Option Nat) (e : Nat)
        (range : ByteRange) (fuel : Nat),
      read_worker ⟨contents, some e, rerrs⟩ range fuel = ([StreamItem.ioErr e], true)) ∧
    (∀ (f : FileModel) (endPos fuel : Nat) (st : WorkerState),
      ∃ datas : List (List Nat),
        (workerLoop f endPos fuel st).1 = datas.map StreamItem.chunk ∨
        ∃ e, workerLoop f endPos fuel st =
          (datas.map StreamItem.chunk ++ [StreamItem.ioErr e], true)) ∧
    (∀ (contents : List Nat) (e k fuel : Nat),
      read_worker ⟨contents, none, fun _ => some e⟩ ⟨0, k + 1⟩ (fuel + 1) =
        ([StreamItem.ioErr e], true)) := by
  refine ⟨fun contents rerrs e range fuel => rfl, ?_, ?_⟩
  · intro f endPos fuel st
    induction fuel generalizing st with
    | zero => exact ⟨[], Or.inl rfl⟩
    | succ n ih =>
      obtain ⟨pos, start, k⟩ := st
      by_cases hlt : start < endPos
      · cases hre : f.readErrs k with
        | some e =>
          rw [workerLoop_step_err f endPos n pos start k e hlt hre]
          exact ⟨[], Or.inr ⟨e, rfl⟩⟩
        | none =>
          rw [workerLoop_step_ok f endPos n pos start k hlt hre]
          obtain ⟨datas, hcase⟩ := ih
            ⟨pos + ((f.contents.drop pos).take (buffer_size (endPos - start))).length,
             start + ((f.contents.drop pos).take (buffer_size (endPos - start))).length,
             k + 1⟩
          rcases hcase with hfst | ⟨e, hall⟩
          · refine ⟨(f.contents.drop pos).take (buffer_size (endPos - start)) :: datas,
              Or.inl ?_⟩
            simp only [List.map_cons]
            rw [← hfst]
          · refine ⟨(f.contents.drop pos).take (buffer_size (endPos - start)) :: datas,
              Or.inr ⟨e, ?_⟩⟩
            rw [hall]
            simp
      · rw [workerLoop_stop f endPos n pos start k (by omega)]
        exact ⟨[], Or.inl rfl⟩
  · intro contents e k fuel
    have h : read_worker ⟨contents, none, fun _ => some e⟩ ⟨0, k + 1⟩ (fuel + 1) =
        workerLoop ⟨contents, none, fun _ => some e⟩ (k + 1) (fuel + 1) ⟨0, 0, 0⟩ := rfl
    rw [h, workerLoop_step_err ⟨contents, none, fun _ => some e⟩ (k + 1) fuel 0 0 0 e
      (by omega) rfl]
